import Mathlib

/-!
Verification development for the commit-backfill script `git_script.py`.

The script has three pure-logic parts, shallowly embedded below:
  * the date scheduler inside `backfill` (day-slot pool, capacity gate,
    sampling without replacement, ascending sort);
  * the commit-message synthesizer (`_classify_change`, `pick_type`,
    `generate_commit_message`, including `textwrap.shorten`);
  * the cosmetic file mutator (`touch_files`).

Calendar dates are embedded as integers counting whole days, so that
`datetime.fromisoformat(end) - datetime.fromisoformat(start)` becomes plain
integer subtraction (the CLI only accepts `YYYY-MM-DD` dates, which parse to
midnight datetimes, so the difference is always a whole number of days).
Randomness (`random.sample`, `random.random`, `random.randint`,
`random.choice`) is embedded nondeterministically: theorems quantify over
every value the random source could produce.  External `git` invocations are
parameters of the embedding (per-file staged diff text and numstat fields).
-/

/-! ## Date scheduler (`backfill`, git_script.py lines 213-234) -/

/-- Fatal configuration errors raised by `backfill` via `SystemExit`. -/
inductive BackfillError where
  | badRange
  | noFiles
  | capacity
deriving DecidableEq, Repr

/-- The day-slot pool built by the loop
`for i in range(total_days): possible_dates.extend([day] * max_per_day)`,
where `day = start_dt + timedelta(days=i)`.  Days are integers. -/
def possible_dates (start : Int) (totalDays maxPerDay : Nat) : List Int :=
  (List.range totalDays).foldl
    (fun acc (i : Nat) => acc ++ List.replicate maxPerDay (start + (i : Int))) []

/-- The configuration phase of `backfill` (git_script.py lines 213-232): the
date-range gate, the tracked-files gate, and the capacity gate, returning the
day-slot pool on success.  `hasFiles` stands for `tracked_files()` being
nonempty. -/
def backfill_check (start endD : Int) (hasFiles : Bool)
    (commits maxPerDay : Nat) : Except BackfillError (List Int) :=
  let totalDays : Int := endD - start + 1
  if totalDays ≤ 0 then .error .badRange
  else if !hasFiles then .error .noFiles
  else
    let pool := possible_dates start totalDays.toNat maxPerDay
    if pool.length < commits then .error .capacity
    else .ok pool

/-- `chosen_dates = sorted(random.sample(possible_dates, commits))`: the
sample is an arbitrary sub-multiset of the pool (quantified over in the
theorems); this is the final ascending sort. -/
def chosen_dates (sample : List Int) : List Int :=
  sample.mergeSort (fun a b => decide (a ≤ b))

/-! ### Pool lemmas -/

theorem possible_dates_eq (start : Int) (totalDays maxPerDay : Nat) :
    possible_dates start totalDays maxPerDay =
      (List.range totalDays).flatMap
        (fun i => List.replicate maxPerDay (start + i)) := by
  suffices h : ∀ (l : List Nat) (acc : List Int),
      l.foldl (fun acc (i : Nat) =>
          acc ++ List.replicate maxPerDay (start + (i : Int))) acc =
        acc ++ l.flatMap
          (fun (i : Nat) => List.replicate maxPerDay (start + (i : Int))) by
    simpa [possible_dates] using h (List.range totalDays) []
  intro l
  induction l with
  | nil => simp
  | cons a l ih =>
      intro acc
      rw [List.foldl_cons, ih, List.flatMap_cons, List.append_assoc]

theorem length_possible_dates (start : Int) (totalDays maxPerDay : Nat) :
    (possible_dates start totalDays maxPerDay).length =
      totalDays * maxPerDay := by
  rw [possible_dates_eq, List.length_flatMap]
  induction totalDays with
  | zero => simp
  | succ n ih =>
      rw [List.range_succ]
      simp only [List.map_append, List.sum_append]
      simp [ih, Nat.succ_mul]

theorem count_possible_dates (start : Int) (totalDays maxPerDay : Nat)
    (d : Int) :
    (possible_dates start totalDays maxPerDay).count d =
      if start ≤ d ∧ d < start + totalDays then maxPerDay else 0 := by
  rw [possible_dates_eq]
  induction totalDays with
  | zero =>
      simp only [List.range_zero, List.flatMap_nil, List.count_nil]
      rw [if_neg (by omega)]
  | succ n ih =>
      rw [List.range_succ, List.flatMap_append, List.count_append, ih]
      simp only [List.flatMap_cons, List.flatMap_nil, List.append_nil,
        List.count_replicate, beq_iff_eq]
      by_cases h2 : start + (n : Int) = d
      · rw [if_neg (by omega), if_pos h2, if_pos (by push_cast; omega)]
        omega
      · rw [if_neg h2]
        by_cases h1 : start ≤ d ∧ d < start + (n : Int)
        · rw [if_pos h1, if_pos (by push_cast; omega)]
          omega
        · rw [if_neg h1, if_neg (by push_cast; omega)]

theorem mem_possible_dates {start : Int} {totalDays maxPerDay : Nat} {d : Int}
    (h : d ∈ possible_dates start totalDays maxPerDay) :
    start ≤ d ∧ d < start + totalDays := by
  by_contra hc
  have hcount := count_possible_dates start totalDays maxPerDay d
  rw [if_neg hc] at hcount
  have := List.count_pos_iff.mpr h
  omega

/-- Inversion of a successful `backfill_check`. -/
theorem backfill_check_ok {start endD : Int} {hasFiles : Bool}
    {commits maxPerDay : Nat} {pool : List Int}
    (h : backfill_check start endD hasFiles commits maxPerDay = .ok pool) :
    0 < endD - start + 1 ∧
      pool = possible_dates start (endD - start + 1).toNat maxPerDay ∧
      commits ≤ pool.length := by
  unfold backfill_check at h
  by_cases h1 : endD - start + 1 ≤ 0
  · simp [h1] at h
  · by_cases h2 : hasFiles
    · simp only [h1, if_false, h2, Bool.not_true, Bool.false_eq_true,
        if_false] at h
      by_cases h3 : (possible_dates start (endD - start + 1).toNat
          maxPerDay).length < commits
      · simp [h3] at h
      · simp only [h3, if_false, Except.ok.injEq] at h
        exact ⟨by omega, h.symm, by rw [← h]; omega⟩
    · simp [h1, h2] at h

/-! ### Claims C1-C4 -/

/-- C1: for every start, end, max_per_day and commits value, with
total_days = end - start + 1, `backfill` rejects the run with a fatal error
whenever commits exceeds total_days * max_per_day, and does not reject on
capacity grounds (error `.capacity`) when commits is within that capacity. -/
theorem C1_capacity_gate (start endD : Int) (hasFiles : Bool)
    (commits maxPerDay : Nat) :
    ((commits : Int) > (endD - start + 1) * (maxPerDay : Int) →
      (backfill_check start endD hasFiles commits maxPerDay).isOk = false) ∧
    ((commits : Int) ≤ (endD - start + 1) * (maxPerDay : Int) →
      backfill_check start endD hasFiles commits maxPerDay ≠
        .error .capacity) := by
  constructor
  · intro hgt
    unfold backfill_check
    by_cases h1 : endD - start + 1 ≤ 0
    · simp [h1, Except.isOk, Except.toBool]
    · by_cases h2 : hasFiles
      · have hlen : (possible_dates start (endD - start + 1).toNat
            maxPerDay).length < commits := by
          rw [length_possible_dates]
          have hcast : (((endD - start + 1).toNat : Int)) =
              endD - start + 1 := Int.toNat_of_nonneg (by omega)
          by_contra hc
          have h4 : (commits : Int) ≤
              ((endD - start + 1).toNat : Int) * (maxPerDay : Int) := by
            exact_mod_cast Nat.le_of_not_lt hc
          rw [hcast] at h4
          linarith
        simp [h1, h2, hlen, Except.isOk, Except.toBool]
      · simp [h1, h2, Except.isOk, Except.toBool]
  · intro hle
    unfold backfill_check
    by_cases h1 : endD - start + 1 ≤ 0
    · simp [h1]
    · by_cases h2 : hasFiles
      · have hlen : ¬ (possible_dates start (endD - start + 1).toNat
            maxPerDay).length < commits := by
          rw [length_possible_dates]
          have hcast : (((endD - start + 1).toNat : Int)) =
              endD - start + 1 := Int.toNat_of_nonneg (by omega)
          intro hc
          have h4 : ((endD - start + 1).toNat : Int) * (maxPerDay : Int) <
              (commits : Int) := by exact_mod_cast hc
          rw [hcast] at h4
          linarith
        simp [h1, h2, hlen]
      · simp [h1, h2]

/-- Witness for C1 at the two spec scenarios: one day at 3 per day cannot
hold 5 commits (fatal), five days at 3 per day can (no capacity error). -/
theorem C1_capacity_gate_witness :
    (backfill_check 0 0 true 5 3).isOk = false ∧
      backfill_check 0 4 true 5 3 ≠ .error .capacity :=
  ⟨(C1_capacity_gate 0 0 true 5 3).1 (by decide),
   (C1_capacity_gate 0 4 true 5 3).2 (by decide)⟩

/-- C2: on every successful run, the produced timestamp sequence
`sorted(random.sample(possible_dates, commits))` is non-decreasing, and every
sampled day d (hence every entry of the sorted output, which is a permutation
of the sample) satisfies start ≤ d ≤ end; since days are integral, d is
start plus the whole number of days d - start ≥ 0. -/
theorem C2_timestamps_in_range (start endD : Int) (hasFiles : Bool)
    (commits maxPerDay : Nat) (pool sample : List Int) (d : Int)
    (hok : backfill_check start endD hasFiles commits maxPerDay = .ok pool)
    (hsub : sample.Subperm pool) (_hlen : sample.length = commits)
    (hd : d ∈ sample) :
    List.Sorted (· ≤ ·) (chosen_dates sample) ∧ start ≤ d ∧ d ≤ endD := by
  obtain ⟨hpos, hpool, -⟩ := backfill_check_ok hok
  refine ⟨?_, ?_⟩
  · have hs := @List.sorted_mergeSort Int (fun a b : Int => decide (a ≤ b))
      (by intro a b c hab hbc; simp only [decide_eq_true_eq] at *; omega)
      (by intro a b; simp only [Bool.or_eq_true, decide_eq_true_eq]; omega)
      sample
    exact hs.imp (fun h => of_decide_eq_true h)
  · have hmem : d ∈ pool := hsub.subset hd
    rw [hpool] at hmem
    have := mem_possible_dates hmem
    omega

/-- Witness for C2: range 0..1 (two days), 6 commits at 3 per day, sampling
the whole pool; day 0 is sampled and lies in [0, 1]. -/
theorem C2_timestamps_in_range_witness :
    List.Sorted (· ≤ ·) (chosen_dates (possible_dates 0 2 3)) ∧
      (0 : Int) ≤ 0 ∧ (0 : Int) ≤ 1 :=
  C2_timestamps_in_range 0 1 true 6 3 (possible_dates 0 2 3)
    (possible_dates 0 2 3) 0 rfl (List.Subperm.refl _) (by decide) (by decide)

/-- C3: on every successful run, no calendar day occurs more than max_per_day
times among the produced timestamps: the sample is drawn without replacement
from a pool holding each day exactly max_per_day times. -/
theorem C3_max_per_day (start endD : Int) (hasFiles : Bool)
    (commits maxPerDay : Nat) (pool sample : List Int) (d : Int)
    (hok : backfill_check start endD hasFiles commits maxPerDay = .ok pool)
    (hsub : sample.Subperm pool) (_hlen : sample.length = commits) :
    (chosen_dates sample).count d ≤ maxPerDay := by
  obtain ⟨hpos, hpool, -⟩ := backfill_check_ok hok
  have h1 : (chosen_dates sample).count d = sample.count d :=
    (List.mergeSort_perm sample _).count_eq d
  have h2 := hsub.count_le d
  rw [hpool, count_possible_dates] at h2
  rw [h1]
  by_cases hc : start ≤ d ∧ d < start + ((endD - start + 1).toNat : Int)
  · rw [if_pos hc] at h2
    omega
  · rw [if_neg hc] at h2
    omega

/-- Witness for C3 at the same concrete run as the C2 witness. -/
theorem C3_max_per_day_witness :
    (chosen_dates (possible_dates 0 2 3)).count 0 ≤ 3 :=
  C3_max_per_day 0 1 true 6 3 (possible_dates 0 2 3)
    (possible_dates 0 2 3) 0 rfl (List.Subperm.refl _) (by decide)

/-- C4 counterexample: the claim says every pair with end ≤ start is
rejected, but with start = end (total_days = 1) and commits within capacity
the configuration phase succeeds, because the code only rejects
total_days ≤ 0, i.e. end strictly before start. -/
theorem C4_counterexample :
    (0 : Int) ≤ 0 ∧ (backfill_check 0 0 true 1 3).isOk = true := by decide

/-- C4 amended: for every pair of dates with end strictly earlier than
start, `backfill` exits with the date-range error, regardless of the file
listing (the check precedes `tracked_files()`) and of commits/max_per_day. -/
theorem C4_reject_reversed_range (start endD : Int) (hasFiles : Bool)
    (commits maxPerDay : Nat) (h : endD < start) :
    backfill_check start endD hasFiles commits maxPerDay =
      .error .badRange := by
  unfold backfill_check
  rw [if_pos (by omega)]

/-- Witness for the amended C4: end one day before start. -/
theorem C4_reject_reversed_range_witness :
    backfill_check 3 2 true 5 3 = .error .badRange :=
  C4_reject_reversed_range 3 2 true 5 3 (by decide)

/-! ## Commit-message synthesizer
(`_classify_change`, `pick_type`, `generate_commit_message`,
git_script.py lines 114-208)

Diff text is embedded as a list of lines, each line a list of characters
(`str.splitlines` applied to the staged diff).  `re` machinery is embedded
directly: the ASCII word characters and whitespace of the patterns in use. -/

/-- Python `\s` / `str.strip` whitespace (ASCII portion). -/
def isSpaceChar (c : Char) : Bool :=
  c == ' ' || c == '\t' || c == '\n' || c == '\r' || c == '\x0b' || c == '\x0c'

/-- Python `\w` word characters (ASCII letters, digits, underscore). -/
def isWordChar (c : Char) : Bool :=
  c.isAlphanum || c == '_'

/-- Python `str.rstrip()`. -/
def rstrip (l : List Char) : List Char :=
  (l.reverse.dropWhile isSpaceChar).reverse

/-- Python `str.lstrip()`. -/
def lstrip (l : List Char) : List Char :=
  l.dropWhile isSpaceChar

/-- Python `str.strip()`. -/
def pyStrip (l : List Char) : List Char :=
  rstrip (lstrip l)

/-- Python `str.startswith` on character lists. -/
def startsWithSeq : List Char → List Char → Bool
  | [], _ => true
  | _ :: _, [] => false
  | p :: ps, c :: cs => p == c && startsWithSeq ps cs

/-- Python `sub in s` substring membership on character lists. -/
def containsSeq (pat : List Char) : List Char → Bool
  | [] => startsWithSeq pat []
  | c :: cs => startsWithSeq pat (c :: cs) || containsSeq pat cs

/-- The alternatives of `_keyword_re`, in the order they appear in the
pattern `\b(?:fix|bug|error|issue|exception|todo|refactor|feature|feat|add|
added|remove|removed)\b`. -/
def keyword_vocab : List (List Char) :=
  ["fix".toList, "bug".toList, "error".toList, "issue".toList,
   "exception".toList, "todo".toList, "refactor".toList, "feature".toList,
   "feat".toList, "add".toList, "added".toList, "remove".toList,
   "removed".toList]

/-- Case-insensitive literal match (re.IGNORECASE): returns the matched
original-case characters and the rest of the input. -/
def matchKeyword : List Char → List Char → Option (List Char × List Char)
  | [], s => some ([], s)
  | _ :: _, [] => none
  | k :: ks, c :: cs =>
      if c.toLower == k then
        match matchKeyword ks cs with
        | some (m, r) => some (c :: m, r)
        | none => none
      else none

/-- The trailing `\b` of `_keyword_re`: every alternative ends in a word
character, so the boundary holds iff the next character is not one. -/
def boundaryAfter : List Char → Bool
  | [] => true
  | c :: _ => !isWordChar c

/-- Try the alternatives in pattern order at the current position, exactly
as the regex engine backtracks through the alternation: an alternative whose
trailing boundary fails is abandoned and the next one is tried. -/
def tryKeywords : List (List Char) → List Char → Option (List Char × List Char)
  | [], _ => none
  | kw :: rest, s =>
      match matchKeyword kw s with
      | some (m, r) =>
          if boundaryAfter r then some (m, r) else tryKeywords rest s
      | none => tryKeywords rest s

/-- One scanning step of `_keyword_re.findall`: positions are tried left to
right; a match is emitted and scanning resumes after it (findall returns
non-overlapping matches).  `bb` records whether the leading `\b` holds at the
current position (every alternative starts with a word character, so the
boundary holds iff the previous character is not one).  The fuel is the
remaining input length, which strictly dominates the number of steps. -/
def scanKeywords : Nat → Bool → List Char → List (List Char)
  | 0, _, _ => []
  | _ + 1, _, [] => []
  | fuel + 1, bb, c :: cs =>
      if bb then
        match tryKeywords keyword_vocab (c :: cs) with
        | some (m, r) =>
            m :: scanKeywords fuel
              (match m.getLast? with
               | some mc => !isWordChar mc
               | none => bb) r
        | none => scanKeywords fuel (!isWordChar c) cs
      else scanKeywords fuel (!isWordChar c) cs

/-- `_keyword_re.findall(text)`. -/
def findKeywords (text : List Char) : List (List Char) :=
  scanKeywords text.length true text

/-- `kw.lower()[:4]` — the tally key derived from a keyword match
(so that feat and feature share the key "feat"). -/
def keyword_key (m : List Char) : String :=
  String.mk ((m.map Char.toLower).take 4)

/-- `collections.Counter` with rational counts (the docs tally uses 0.5
increments), as an insertion-ordered association list like a Python dict. -/
abbrev KindCounter := List (String × Rat)

/-- `kinds[k] += v`: add to the first entry with the key, or append a fresh
entry at the end (dict insertion order). -/
def bump : KindCounter → String → Rat → KindCounter
  | [], k, v => [(k, v)]
  | (k0, v0) :: rest, k, v =>
      if k0 = k then (k0, v0 + v) :: rest else (k0, v0) :: bump rest k v

/-- `kinds[k]` read access: a missing key counts 0. -/
def cnt : KindCounter → String → Rat
  | [], _ => 0
  | (k0, v0) :: rest, k => if k0 = k then v0 else cnt rest k

/-- The line filter and text extraction at the top of the
`_classify_change` loop: skip empty lines, lines not starting with + or -,
and the `+++` and `---` file headers; otherwise classify
`line[1:].strip()`. -/
def content_text (line : List Char) : Option (List Char) :=
  match line with
  | [] => none
  | c :: rest =>
      if c ≠ '+' ∧ c ≠ '-' then none
      else if startsWithSeq "+++".toList line ||
          startsWithSeq "---".toList line then none
      else some (pyStrip rest)

/-- `re.match(w + "\b", text)` for a literal word `w`. -/
def matchWordPfx (w : List Char) (t : List Char) : Bool :=
  startsWithSeq w t && boundaryAfter (t.drop w.length)

/-- `re.match(r"(def|class|function)\b", text)`. -/
def def_cue (t : List Char) : Bool :=
  matchWordPfx "def".toList t || matchWordPfx "class".toList t ||
    matchWordPfx "function".toList t

/-- `re.match(r"(test_|it\(|describe\()", text)`. -/
def test_cue (t : List Char) : Bool :=
  startsWithSeq "test_".toList t || startsWithSeq "it(".toList t ||
    startsWithSeq "describe(".toList t

/-- `text.startswith(("#", "//", "/*", "*", three double quotes))`. -/
def docs_cue (t : List Char) : Bool :=
  startsWithSeq "#".toList t || startsWithSeq "//".toList t ||
    startsWithSeq "/*".toList t || startsWithSeq "*".toList t ||
    startsWithSeq "\"\"\"".toList t

/-- The body of the `_classify_change` loop for one diff line. -/
def classify_line (kinds : KindCounter) (line : List Char) : KindCounter :=
  match content_text line with
  | none => kinds
  | some text =>
      let k1 := (findKeywords text).foldl
        (fun acc m => bump acc (keyword_key m) 1) kinds
      let k2 := if def_cue text then bump k1 "feat" 2 else k1
      let k3 := if test_cue text then bump k2 "test" 1 else k2
      if docs_cue text then bump k3 "docs" (1/2 : Rat) else k3

/-- `_classify_change(diff)` over the split diff lines. -/
def _classify_change (diffLines : List (List Char)) : KindCounter :=
  diffLines.foldl classify_line []

/-- A staged file as `generate_commit_message` sees it: `pathlib.Path`
accessors are carried as fields (`str(f)`, `f.stem`, `f.suffix`,
`f.parts[0]`). -/
structure PyFile where
  path : List Char
  stem : List Char
  suffix : String
  parts0 : List Char
deriving DecidableEq, Repr

/-- `pick_type()` (git_script.py lines 186-199): fixed precedence over the
tally, then file-shape fallbacks. -/
def pick_type (overall : KindCounter) (files : List PyFile) : String :=
  if cnt overall "fix" > 0 then "fix"
  else if cnt overall "feat" > 0 then "feat"
  else if cnt overall "refa" > 0 then "refactor"
  else if files.all (fun f => f.suffix == ".md" || f.suffix == ".rst") then
    "docs"
  else if files.all (fun f => containsSeq "test".toList f.parts0 ||
      f.suffix == ".spec" || f.suffix == ".test") then "test"
  else if files.all (fun f => f.suffix == ".css" || f.suffix == ".scss" ||
      f.suffix == ".sass") then "style"
  else "chore"

/-- `Counter.update(kinds)`: add the counts of `b` into `a`, appending
unseen keys in iteration order. -/
def counter_update (a b : KindCounter) : KindCounter :=
  b.foldl (fun acc p => bump acc p.1 p.2) a

/-- The `overall_kinds` accumulation loop of `generate_commit_message`:
each staged file contributes the classification of its own staged diff
(`diffOf f` stands for `_git_diff_for(f).splitlines()`). -/
def overall_kinds_of (files : List PyFile)
    (diffOf : PyFile → List (List Char)) : KindCounter :=
  files.foldl (fun acc f => counter_update acc (_classify_change (diffOf f))) []

/-! ### Classifier lemmas -/

/-- The tally keys the keyword scan produces for one diff line (empty when
the line is filtered out). -/
def line_keys (line : List Char) : List String :=
  match content_text line with
  | none => []
  | some text => (findKeywords text).map keyword_key

/-- All tally keys one diff line bumps, keyword matches and structural cues
together. -/
def line_bump_keys (line : List Char) : List String :=
  match content_text line with
  | none => []
  | some text =>
      (findKeywords text).map keyword_key
        ++ (if def_cue text then ["feat"] else [])
        ++ (if test_cue text then ["test"] else [])
        ++ (if docs_cue text then ["docs"] else [])

/-- The total amount one diff line adds to the tally at key `k`. -/
def line_contrib (line : List Char) (k : String) : Rat :=
  match content_text line with
  | none => 0
  | some text =>
      (((findKeywords text).map keyword_key).count k : Rat)
        + (if def_cue text ∧ k = "feat" then 2 else 0)
        + (if test_cue text ∧ k = "test" then 1 else 0)
        + (if docs_cue text ∧ k = "docs" then (1/2 : Rat) else 0)

/-- Total weight of key `k` over all entries of a counter (for counters
built by `bump` the key occurs at most once, so this agrees with `cnt`). -/
def sumCnt : KindCounter → String → Rat
  | [], _ => 0
  | (k0, v0) :: rest, k => (if k0 = k then v0 else 0) + sumCnt rest k

theorem cnt_bump (ks : KindCounter) (k k' : String) (v : Rat) :
    cnt (bump ks k v) k' = cnt ks k' + (if k' = k then v else 0) := by
  induction ks with
  | nil =>
      by_cases h : k' = k
      · subst h; simp [bump, cnt]
      · simp [bump, cnt, h, Ne.symm h]
  | cons p rest ih =>
      obtain ⟨k0, v0⟩ := p
      by_cases h0 : k0 = k
      · subst h0
        by_cases h1 : k0 = k'
        · subst h1; simp [bump, cnt]
        · simp [bump, cnt, h1, Ne.symm h1]
      · by_cases h1 : k0 = k'
        · subst h1
          simp [bump, cnt, h0, Ne.symm h0]
        · simp [bump, cnt, h0, h1, ih]

theorem sumCnt_bump (ks : KindCounter) (k k' : String) (v : Rat) :
    sumCnt (bump ks k v) k' = sumCnt ks k' + (if k' = k then v else 0) := by
  induction ks with
  | nil =>
      by_cases h : k' = k
      · subst h; simp [bump, sumCnt]
      · simp [bump, sumCnt, h, Ne.symm h]
  | cons p rest ih =>
      obtain ⟨k0, v0⟩ := p
      by_cases h0 : k0 = k
      · subst h0
        by_cases h1 : k0 = k'
        · subst h1; simp [bump, sumCnt]; ring
        · simp [bump, sumCnt, h1, Ne.symm h1]
      · by_cases h1 : k0 = k'
        · subst h1
          simp [bump, sumCnt, h0, ih]
        · simp [bump, sumCnt, h0, h1, ih]

theorem cnt_counter_update (a b : KindCounter) (k : String) :
    cnt (counter_update a b) k = cnt a k + sumCnt b k := by
  induction b generalizing a with
  | nil => simp [counter_update, sumCnt]
  | cons p rest ih =>
      obtain ⟨k0, v0⟩ := p
      have hstep : counter_update a ((k0, v0) :: rest) =
          counter_update (bump a k0 v0) rest := rfl
      rw [hstep, ih, cnt_bump]
      simp only [sumCnt]
      by_cases h : k = k0
      · subst h; simp; ring
      · have h' : k0 ≠ k := fun hc => h hc.symm
        simp [h, h']

theorem sumCnt_kwfold (ms : List (List Char)) (ks : KindCounter) (k : String) :
    sumCnt (ms.foldl (fun acc m => bump acc (keyword_key m) 1) ks) k =
      sumCnt ks k + (((ms.map keyword_key).count k : Nat) : Rat) := by
  induction ms generalizing ks with
  | nil => simp
  | cons m ms ih =>
      rw [List.foldl_cons, ih, sumCnt_bump]
      simp only [List.map_cons, List.count_cons]
      by_cases h : keyword_key m = k
      · simp only [h, beq_self_eq_true, if_pos rfl, if_true]
        push_cast
        ring
      · have h' : ¬ (keyword_key m == k) = true := by simpa using h
        have h'' : ¬ k = keyword_key m := fun hc => h hc.symm
        simp only [h', if_false, h'', if_neg, Nat.add_zero, add_zero]
        push_cast
        ring

theorem sumCnt_classify_line (ks : KindCounter) (line : List Char)
    (k : String) :
    sumCnt (classify_line ks line) k = sumCnt ks k + line_contrib line k := by
  unfold classify_line line_contrib
  cases hct : content_text line with
  | none => simp
  | some text =>
      dsimp only
      by_cases hdef : def_cue text <;> by_cases htest : test_cue text <;>
        by_cases hdocs : docs_cue text <;>
          simp [hdef, htest, hdocs, sumCnt_bump, sumCnt_kwfold] <;> ring

theorem sumCnt_classify (diff : List (List Char)) (k : String) :
    sumCnt (_classify_change diff) k =
      (diff.map (fun l => line_contrib l k)).sum := by
  suffices h : ∀ ks, sumCnt (diff.foldl classify_line ks) k =
      sumCnt ks k + (diff.map (fun l => line_contrib l k)).sum by
    simpa [_classify_change, sumCnt] using h []
  induction diff with
  | nil => simp
  | cons l ls ih =>
      intro ks
      rw [List.foldl_cons, ih, sumCnt_classify_line]
      simp only [List.map_cons, List.sum_cons]
      ring

theorem cnt_overall (files : List PyFile)
    (diffOf : PyFile → List (List Char)) (k : String) :
    cnt (overall_kinds_of files diffOf) k =
      (files.map
        (fun f => ((diffOf f).map (fun l => line_contrib l k)).sum)).sum := by
  suffices h : ∀ a, cnt (files.foldl
      (fun acc f => counter_update acc (_classify_change (diffOf f))) a) k =
        cnt a k + (files.map
          (fun f => ((diffOf f).map (fun l => line_contrib l k)).sum)).sum by
    simpa [overall_kinds_of, cnt] using h []
  induction files with
  | nil => simp
  | cons f fs ih =>
      intro a
      rw [List.foldl_cons, ih, cnt_counter_update, sumCnt_classify]
      simp only [List.map_cons, List.sum_cons]
      ring

theorem line_contrib_nonneg (line : List Char) (k : String) :
    0 ≤ line_contrib line k := by
  unfold line_contrib
  cases hct : content_text line with
  | none => simp
  | some text =>
      dsimp only
      have hc : (0 : Rat) ≤
          (((findKeywords text).map keyword_key).count k : Nat) := by
        positivity
      have h2 : (0 : Rat) ≤
          (if def_cue text ∧ k = "feat" then (2 : Rat) else 0) := by
        split_ifs <;> norm_num
      have h3 : (0 : Rat) ≤
          (if test_cue text ∧ k = "test" then (1 : Rat) else 0) := by
        split_ifs <;> norm_num
      have h4 : (0 : Rat) ≤
          (if docs_cue text ∧ k = "docs" then (1/2 : Rat) else 0) := by
        split_ifs <;> norm_num
      linarith

theorem line_contrib_of_not_mem {line : List Char} {k : String}
    (h : k ∉ line_bump_keys line) : line_contrib line k = 0 := by
  unfold line_bump_keys at h
  unfold line_contrib
  cases hct : content_text line with
  | none => simp
  | some text =>
      rw [hct] at h
      dsimp only at h ⊢
      simp only [List.mem_append, not_or] at h
      obtain ⟨⟨⟨hkw, hdef⟩, htest⟩, hdocs⟩ := h
      have hcount : ((findKeywords text).map keyword_key).count k = 0 :=
        List.count_eq_zero.mpr hkw
      have hdef' : ¬ (def_cue text ∧ k = "feat") := by
        rintro ⟨hd, hk⟩
        exact hdef (by simp [hd, hk])
      have htest' : ¬ (test_cue text ∧ k = "test") := by
        rintro ⟨hd, hk⟩
        exact htest (by simp [hd, hk])
      have hdocs' : ¬ (docs_cue text ∧ k = "docs") := by
        rintro ⟨hd, hk⟩
        exact hdocs (by simp [hd, hk])
      rw [hcount, if_neg hdef', if_neg htest', if_neg hdocs']
      norm_num

theorem line_contrib_ge_one {line : List Char} {k : String}
    (h : k ∈ line_keys line) : 1 ≤ line_contrib line k := by
  unfold line_keys at h
  unfold line_contrib
  cases hct : content_text line with
  | none => rw [hct] at h; simp at h
  | some text =>
      rw [hct] at h
      dsimp only at h ⊢
      have hcount : 0 < ((findKeywords text).map keyword_key).count k :=
        List.count_pos_iff.mpr h
      have hc : (1 : Rat) ≤
          (((findKeywords text).map keyword_key).count k : Nat) := by
        exact_mod_cast hcount
      have h2 : (0 : Rat) ≤
          (if def_cue text ∧ k = "feat" then (2 : Rat) else 0) := by
        split_ifs <;> norm_num
      have h3 : (0 : Rat) ≤
          (if test_cue text ∧ k = "test" then (1 : Rat) else 0) := by
        split_ifs <;> norm_num
      have h4 : (0 : Rat) ≤
          (if docs_cue text ∧ k = "docs" then (1/2 : Rat) else 0) := by
        split_ifs <;> norm_num
      linarith

theorem cnt_overall_nonneg (files : List PyFile)
    (diffOf : PyFile → List (List Char)) (k : String) :
    0 ≤ cnt (overall_kinds_of files diffOf) k := by
  rw [cnt_overall]
  apply List.sum_nonneg
  intro x hx
  obtain ⟨f, hf, rfl⟩ := List.mem_map.mp hx
  apply List.sum_nonneg
  intro y hy
  obtain ⟨l, hl, rfl⟩ := List.mem_map.mp hy
  exact line_contrib_nonneg l k

theorem cnt_overall_zero (files : List PyFile)
    (diffOf : PyFile → List (List Char)) (k : String)
    (h : ∀ f ∈ files, ∀ l ∈ diffOf f, k ∉ line_bump_keys l) :
    cnt (overall_kinds_of files diffOf) k = 0 := by
  rw [cnt_overall]
  apply List.sum_eq_zero
  intro x hx
  obtain ⟨f, hf, rfl⟩ := List.mem_map.mp hx
  apply List.sum_eq_zero
  intro y hy
  obtain ⟨l, hl, rfl⟩ := List.mem_map.mp hy
  exact line_contrib_of_not_mem (h f hf l hl)

/-- With the fix, feat and refa tallies all zero, `pick_type` falls through
to the file-shape branches. -/
theorem pick_type_fallback (overall : KindCounter) (files : List PyFile)
    (hfix : cnt overall "fix" = 0) (hfeat : cnt overall "feat" = 0)
    (hrefa : cnt overall "refa" = 0) :
    pick_type overall files =
      (if files.all (fun f => f.suffix == ".md" || f.suffix == ".rst") then
        "docs"
      else if files.all (fun f => containsSeq "test".toList f.parts0 ||
          f.suffix == ".spec" || f.suffix == ".test") then "test"
      else if files.all (fun f => f.suffix == ".css" || f.suffix == ".scss" ||
          f.suffix == ".sass") then "style"
      else "chore") := by
  unfold pick_type
  rw [if_neg (by rw [hfix]; exact lt_irrefl 0),
    if_neg (by rw [hfeat]; exact lt_irrefl 0),
    if_neg (by rw [hrefa]; exact lt_irrefl 0)]

/-! ### Claims C5, C6, C10 -/

/-- C5: whenever some staged diff line yields a keyword match with tally key
"fix" (in particular, for every diff whose added/removed lines contain only
text matching `fix`), `pick_type` selects "fix", regardless of the batch
files and their extensions: "fix" has top precedence and no tally ever
decreases. -/
theorem C5_fix_keyword_selects_fix (files : List PyFile)
    (diffOf : PyFile → List (List Char)) (f : PyFile) (line : List Char)
    (hf : f ∈ files) (hl : line ∈ diffOf f)
    (hfix : "fix" ∈ line_keys line) :
    pick_type (overall_kinds_of files diffOf) files = "fix" := by
  have hone : (1 : Rat) ≤ cnt (overall_kinds_of files diffOf) "fix" := by
    rw [cnt_overall]
    have hinner : (1 : Rat) ≤
        ((diffOf f).map (fun l => line_contrib l "fix")).sum := by
      refine le_trans (line_contrib_ge_one hfix) ?_
      refine List.single_le_sum ?_ _ (List.mem_map_of_mem _ hl)
      intro x hx
      obtain ⟨l, hl', rfl⟩ := List.mem_map.mp hx
      exact line_contrib_nonneg l "fix"
    refine le_trans hinner ?_
    refine List.single_le_sum ?_ _ (List.mem_map_of_mem _ hf)
    intro x hx
    obtain ⟨g, hg, rfl⟩ := List.mem_map.mp hx
    apply List.sum_nonneg
    intro y hy
    obtain ⟨l, hl', rfl⟩ := List.mem_map.mp hy
    exact line_contrib_nonneg l "fix"
  unfold pick_type
  rw [if_pos (by linarith)]

/-- Witness for C5: a one-file batch (a .py file, so not a docs batch) whose
staged diff adds one line containing the keyword fix. -/
theorem C5_fix_keyword_selects_fix_witness :
    pick_type
      (overall_kinds_of
        [⟨"app.py".toList, "app".toList, ".py", "app.py".toList⟩]
        (fun _ => ["+fix crash".toList]))
      [⟨"app.py".toList, "app".toList, ".py", "app.py".toList⟩] = "fix" :=
  C5_fix_keyword_selects_fix
    [⟨"app.py".toList, "app".toList, ".py", "app.py".toList⟩]
    (fun _ => ["+fix crash".toList])
    ⟨"app.py".toList, "app".toList, ".py", "app.py".toList⟩
    "+fix crash".toList (by decide) (by decide) (by decide)

/-- C6: with no diff line bumping the fix, feat or refa tallies, a batch of
markdown files yields type "docs", and a mixed batch (not all markdown or
rst, not all test-shaped, not all stylesheet) yields the "chore" fallback. -/
theorem C6_docs_and_chore_fallbacks (diffOf : PyFile → List (List Char))
    (files1 files2 : List PyFile)
    (h1 : ∀ f ∈ files1, ∀ l ∈ diffOf f, "fix" ∉ line_bump_keys l ∧
      "feat" ∉ line_bump_keys l ∧ "refa" ∉ line_bump_keys l)
    (h2 : ∀ f ∈ files2, ∀ l ∈ diffOf f, "fix" ∉ line_bump_keys l ∧
      "feat" ∉ line_bump_keys l ∧ "refa" ∉ line_bump_keys l)
    (hmd : ∀ f ∈ files1, f.suffix = ".md")
    (hnotmd : files2.all
      (fun f => f.suffix == ".md" || f.suffix == ".rst") = false)
    (hnottest : files2.all (fun f => containsSeq "test".toList f.parts0 ||
      f.suffix == ".spec" || f.suffix == ".test") = false)
    (hnotcss : files2.all (fun f => f.suffix == ".css" ||
      f.suffix == ".scss" || f.suffix == ".sass") = false) :
    pick_type (overall_kinds_of files1 diffOf) files1 = "docs" ∧
      pick_type (overall_kinds_of files2 diffOf) files2 = "chore" := by
  constructor
  · rw [pick_type_fallback _ _
      (cnt_overall_zero _ _ _ (fun f hf l hl => (h1 f hf l hl).1))
      (cnt_overall_zero _ _ _ (fun f hf l hl => (h1 f hf l hl).2.1))
      (cnt_overall_zero _ _ _ (fun f hf l hl => (h1 f hf l hl).2.2))]
    rw [if_pos (List.all_eq_true.mpr (fun f hf => by simp [hmd f hf]))]
  · rw [pick_type_fallback _ _
      (cnt_overall_zero _ _ _ (fun f hf l hl => (h2 f hf l hl).1))
      (cnt_overall_zero _ _ _ (fun f hf l hl => (h2 f hf l hl).2.1))
      (cnt_overall_zero _ _ _ (fun f hf l hl => (h2 f hf l hl).2.2))]
    rw [if_neg (by intro hc; rw [hc] at hnotmd; exact Bool.noConfusion hnotmd),
      if_neg (by intro hc; rw [hc] at hnottest; exact Bool.noConfusion hnottest),
      if_neg (by intro hc; rw [hc] at hnotcss; exact Bool.noConfusion hnotcss)]

/-- Witness for C6: a keyword-free diff line; a pure markdown batch gives
"docs", a mixed .py + .md batch gives "chore". -/
theorem C6_docs_and_chore_fallbacks_witness :
    pick_type
      (overall_kinds_of
        [⟨"README.md".toList, "README".toList, ".md", "README.md".toList⟩]
        (fun _ => ["+updated readme".toList]))
      [⟨"README.md".toList, "README".toList, ".md", "README.md".toList⟩] =
        "docs" ∧
    pick_type
      (overall_kinds_of
        [⟨"main.py".toList, "main".toList, ".py", "main.py".toList⟩,
         ⟨"README.md".toList, "README".toList, ".md", "README.md".toList⟩]
        (fun _ => ["+updated readme".toList]))
      [⟨"main.py".toList, "main".toList, ".py", "main.py".toList⟩,
       ⟨"README.md".toList, "README".toList, ".md", "README.md".toList⟩] =
        "chore" :=
  C6_docs_and_chore_fallbacks (fun _ => ["+updated readme".toList])
    [⟨"README.md".toList, "README".toList, ".md", "README.md".toList⟩]
    [⟨"main.py".toList, "main".toList, ".py", "main.py".toList⟩,
     ⟨"README.md".toList, "README".toList, ".md", "README.md".toList⟩]
    (by decide) (by decide) (by decide) (by decide) (by decide) (by decide)

/-- C10: the tallies for bug, error, issue, exception, todo, add, added,
remove, removed (tally keys bug, erro, issu, exce, todo, add, adde, remo)
are accumulated but never read by `pick_type`: a diff bumping only those
keys, over a mixed batch, yields "chore". -/
theorem C10_unused_tallies (diffOf : PyFile → List (List Char))
    (files : List PyFile)
    (hkeys : ∀ f ∈ files, ∀ l ∈ diffOf f, ∀ k ∈ line_bump_keys l,
      k ∈ (["bug", "erro", "issu", "exce", "todo", "add", "adde", "remo"] :
        List String))
    (hnotmd : files.all
      (fun f => f.suffix == ".md" || f.suffix == ".rst") = false)
    (hnottest : files.all (fun f => containsSeq "test".toList f.parts0 ||
      f.suffix == ".spec" || f.suffix == ".test") = false)
    (hnotcss : files.all (fun f => f.suffix == ".css" ||
      f.suffix == ".scss" || f.suffix == ".sass") = false) :
    pick_type (overall_kinds_of files diffOf) files = "chore" := by
  rw [pick_type_fallback _ _
    (cnt_overall_zero _ _ _ (fun f hf l hl hmem =>
      absurd (hkeys f hf l hl _ hmem) (by decide)))
    (cnt_overall_zero _ _ _ (fun f hf l hl hmem =>
      absurd (hkeys f hf l hl _ hmem) (by decide)))
    (cnt_overall_zero _ _ _ (fun f hf l hl hmem =>
      absurd (hkeys f hf l hl _ hmem) (by decide)))]
  rw [if_neg (by intro hc; rw [hc] at hnotmd; exact Bool.noConfusion hnotmd),
    if_neg (by intro hc; rw [hc] at hnottest; exact Bool.noConfusion hnottest),
    if_neg (by intro hc; rw [hc] at hnotcss; exact Bool.noConfusion hnotcss)]

/-- Witness for C10: a diff line matching bug, added and todo (tally keys
bug, adde, todo) over a mixed .py + .txt batch still yields "chore". -/
theorem C10_unused_tallies_witness :
    pick_type
      (overall_kinds_of
        [⟨"main.py".toList, "main".toList, ".py", "main.py".toList⟩,
         ⟨"notes.txt".toList, "notes".toList, ".txt", "notes.txt".toList⟩]
        (fun _ => ["+bug added todo".toList]))
      [⟨"main.py".toList, "main".toList, ".py", "main.py".toList⟩,
       ⟨"notes.txt".toList, "notes".toList, ".txt", "notes.txt".toList⟩] =
        "chore" :=
  C10_unused_tallies (fun _ => ["+bug added todo".toList])
    [⟨"main.py".toList, "main".toList, ".py", "main.py".toList⟩,
     ⟨"notes.txt".toList, "notes".toList, ".txt", "notes.txt".toList⟩]
    (by decide) (by decide) (by decide) (by decide)

/-! ### `generate_commit_message` (git_script.py lines 157-208) -/

/-- Python `str.split()` with no separator: maximal runs of non-whitespace.
The accumulator holds the current word reversed. -/
def splitWsAux : List Char → List Char → List (List Char)
  | acc, [] => if acc = [] then [] else [acc.reverse]
  | acc, c :: cs =>
      if isSpaceChar c then
        if acc = [] then splitWsAux [] cs
        else acc.reverse :: splitWsAux [] cs
      else splitWsAux (c :: acc) cs

def splitWs (l : List Char) : List (List Char) :=
  splitWsAux [] l

/-- Join words with single spaces (how `textwrap` lays out one line). -/
def joinSpace : List (List Char) → List Char
  | [] => []
  | [w] => w
  | w :: ws => w ++ ' ' :: joinSpace ws

/-- The word count kept by `textwrap`'s truncation: it greedily fills the
single allowed line and then pops words from the end until the line plus the
placeholder fits, which leaves the largest k ≥ 1 such that the first k words
joined by spaces plus the placeholder fit the width (0 when no k works). -/
def bestFit (ws : List (List Char)) (width phLen : Nat) : Nat :=
  ((List.range (ws.length + 1)).filter
    (fun k => decide (1 ≤ k) &&
      decide ((joinSpace (ws.take k)).length + phLen ≤ width))).foldr max 0

/-- `textwrap.shorten(text, width, placeholder)`: collapse whitespace; if the
collapsed text fits, return it; otherwise keep the longest word prefix that
fits together with the placeholder and append the placeholder; if not even
one word fits, return the placeholder left-stripped. -/
def shorten (text : List Char) (width : Nat) (placeholder : List Char) :
    List Char :=
  let ws := splitWs text
  let collapsed := joinSpace ws
  if collapsed.length ≤ width then collapsed
  else
    let k := bestFit ws width placeholder.length
    if k = 0 then placeholder.dropWhile isSpaceChar
    else joinSpace (ws.take k) ++ placeholder

/-- `files[0].stem.replace("_", " ").replace("-", " ")`. -/
def top_file_of (f : PyFile) : List Char :=
  (f.stem.map (fun c => if c = '_' then ' ' else c)).map
    (fun c => if c = '-' then ' ' else c)

/-- The `subject` local of `generate_commit_message`:
`shorten(f"{commit_type}: update {top_file}", width=50, placeholder="…")`. -/
def subject_of (files : List PyFile)
    (diffOf : PyFile → List (List Char)) : List Char :=
  match files with
  | [] => []
  | f0 :: _ =>
      shorten ((pick_type (overall_kinds_of files diffOf) files).toList
        ++ ": update ".toList ++ top_file_of f0) 50 "…".toList

/-- The `bullets` local: one `f"- {f} (+{adds} / -{dels})"` entry per file;
`statsOf f` carries the two numstat fields already split (the tab-splitting
of `git diff --numstat` output, with the `("0", "0")` default). -/
def bullets_of (files : List PyFile)
    (statsOf : PyFile → List Char × List Char) : List (List Char) :=
  files.map (fun f => "- ".toList ++ f.path ++ " (+".toList ++ (statsOf f).1
    ++ " / -".toList ++ (statsOf f).2 ++ ")".toList)

/-- `Counter.most_common()`: entries sorted by count descending (stable). -/
def most_common (c : KindCounter) : KindCounter :=
  c.mergeSort (fun a b => decide (b.2 ≤ a.2))

/-- `", ".join(...)`. -/
def joinCommaSep : List (List Char) → List Char
  | [] => []
  | [w] => w
  | w :: ws => w ++ (", ".toList ++ joinCommaSep ws)

/-- The `summary` local: `", ".join(f"{k}×{v}" for k, v in most_common())`.
The numeric rendering of the count differs from Python (`7/2` versus `3.5`)
but no claim depends on it; the `×` separator is what matters below. -/
def summary_of (files : List PyFile)
    (diffOf : PyFile → List (List Char)) : List Char :=
  joinCommaSep ((most_common (overall_kinds_of files diffOf)).map
    (fun p => p.1.toList ++ ['×'] ++ (toString p.2).toList))

/-- `generate_commit_message`: for an empty batch the fixed message;
otherwise the function accumulates the tally and the bullet list, builds the
subject, the bullets and the summary, and returns the final f-string — which
interpolates only the subject followed by a newline, exactly as in the
source (the bullet list and summary are computed but unused there). -/
def generate_commit_message (files : List PyFile)
    (diffOf : PyFile → List (List Char))
    (statsOf : PyFile → List Char × List Char) : List Char :=
  if files = [] then
    "chore: update project\n\n(no file changes detected)".toList
  else
    let _bullets := bullets_of files statsOf
    let _summary := summary_of files diffOf
    subject_of files diffOf ++ ['\n']

/-! ### Lemmas about `shorten`, substrings, and the summary -/

theorem foldr_max_zero_or_mem (l : List Nat) :
    l.foldr max 0 = 0 ∨ l.foldr max 0 ∈ l := by
  induction l with
  | nil => left; rfl
  | cons a l ih =>
      rcases ih with h | h
      · right
        simp only [List.foldr_cons, h, Nat.max_zero]
        exact List.mem_cons_self a l
      · by_cases hc : a ≤ l.foldr max 0
        · right
          simp only [List.foldr_cons, Nat.max_eq_right hc]
          exact List.mem_cons_of_mem _ h
        · right
          simp only [List.foldr_cons,
            Nat.max_eq_left (Nat.le_of_not_le hc)]
          exact List.mem_cons_self a l

theorem splitWsAux_chars {c : Char} :
    ∀ (s acc w : List Char), w ∈ splitWsAux acc s → c ∈ w →
      c ∈ acc ∨ c ∈ s := by
  intro s
  induction s with
  | nil =>
      intro acc w hw hc
      by_cases h : acc = []
      · simp [splitWsAux, h] at hw
      · simp only [splitWsAux, if_neg h, List.mem_singleton] at hw
        subst hw
        left
        exact List.mem_reverse.mp hc
  | cons c0 cs ih =>
      intro acc w hw hc
      by_cases hsp : isSpaceChar c0
      · by_cases h : acc = []
        · simp only [splitWsAux, if_pos hsp, if_pos h] at hw
          rcases ih [] w hw hc with h' | h'
          · simp at h'
          · right; exact List.mem_cons_of_mem _ h'
        · simp only [splitWsAux, if_pos hsp, if_neg h] at hw
          rcases List.mem_cons.mp hw with h' | h'
          · subst h'
            left
            exact List.mem_reverse.mp hc
          · rcases ih [] w h' hc with h'' | h''
            · simp at h''
            · right; exact List.mem_cons_of_mem _ h''
      · simp only [splitWsAux, if_neg hsp] at hw
        rcases ih (c0 :: acc) w hw hc with h' | h'
        · rcases List.mem_cons.mp h' with h'' | h''
          · right; subst h''; exact List.mem_cons_self _ _
          · left; exact h''
        · right; exact List.mem_cons_of_mem _ h'

theorem joinSpace_chars {c : Char} :
    ∀ (ws : List (List Char)), c ∈ joinSpace ws →
      c = ' ' ∨ ∃ w ∈ ws, c ∈ w := by
  intro ws
  induction ws with
  | nil => intro h; simp [joinSpace] at h
  | cons w ws ih =>
      intro h
      cases ws with
      | nil =>
          right
          exact ⟨w, List.mem_cons_self _ _, by simpa [joinSpace] using h⟩
      | cons w' ws' =>
          have hju : joinSpace (w :: w' :: ws') =
              w ++ ' ' :: joinSpace (w' :: ws') := rfl
          rw [hju] at h
          rcases List.mem_append.mp h with h' | h'
          · right; exact ⟨w, List.mem_cons_self _ _, h'⟩
          · rcases List.mem_cons.mp h' with h'' | h''
            · left; exact h''
            · rcases ih h'' with h3 | ⟨w2, hw2, hc2⟩
              · left; exact h3
              · right; exact ⟨w2, List.mem_cons_of_mem _ hw2, hc2⟩

theorem splitWs_chars {c : Char} {t w : List Char}
    (hw : w ∈ splitWs t) (hc : c ∈ w) : c ∈ t := by
  rcases splitWsAux_chars t [] w hw hc with h | h
  · simp at h
  · exact h

theorem shorten_chars {c : Char} {t : List Char} {width : Nat}
    {ph : List Char} (hc : c ∈ shorten t width ph) :
    c ∈ t ∨ c = ' ' ∨ c ∈ ph := by
  simp only [shorten] at hc
  by_cases h1 : (joinSpace (splitWs t)).length ≤ width
  · rw [if_pos h1] at hc
    rcases joinSpace_chars _ hc with h | ⟨w, hw, hcw⟩
    · right; left; exact h
    · left; exact splitWs_chars hw hcw
  · rw [if_neg h1] at hc
    by_cases h2 : bestFit (splitWs t) width ph.length = 0
    · rw [if_pos h2] at hc
      right; right
      exact (List.dropWhile_sublist _).subset hc
    · rw [if_neg h2] at hc
      rcases List.mem_append.mp hc with h | h
      · rcases joinSpace_chars _ h with h' | ⟨w, hw, hcw⟩
        · right; left; exact h'
        · left; exact splitWs_chars (List.take_subset _ _ hw) hcw
      · right; right; exact h

theorem shorten_length (t : List Char) (width : Nat) (ph : List Char) :
    (shorten t width ph).length ≤
      max width (ph.dropWhile isSpaceChar).length := by
  simp only [shorten]
  by_cases h1 : (joinSpace (splitWs t)).length ≤ width
  · rw [if_pos h1]
    exact le_max_of_le_left h1
  · rw [if_neg h1]
    by_cases h2 : bestFit (splitWs t) width ph.length = 0
    · rw [if_pos h2]
      exact le_max_right _ _
    · rw [if_neg h2]
      refine le_max_of_le_left ?_
      have hfm := foldr_max_zero_or_mem
        ((List.range ((splitWs t).length + 1)).filter
          (fun k => decide (1 ≤ k) &&
            decide ((joinSpace ((splitWs t).take k)).length + ph.length ≤
              width)))
      rcases hfm with h | h
      · exact absurd h h2
      · have hcond := (List.mem_filter.mp h).2
        simp only [Bool.and_eq_true, decide_eq_true_eq] at hcond
        rw [List.length_append]
        exact hcond.2

theorem pick_type_mem (overall : KindCounter) (files : List PyFile) :
    pick_type overall files ∈
      (["fix", "feat", "refactor", "docs", "test", "style", "chore"] :
        List String) := by
  unfold pick_type
  split_ifs <;> simp

theorem top_file_chars {c : Char} {f : PyFile} (hc : c ∈ top_file_of f)
    (hsp : c ≠ ' ') : c ∈ f.stem := by
  unfold top_file_of at hc
  rcases List.mem_map.mp hc with ⟨c1, hc1, he1⟩
  rcases List.mem_map.mp hc1 with ⟨c0, hc0, he0⟩
  by_cases hd1 : c1 = '-'
  · rw [if_pos hd1] at he1
    exact absurd he1.symm hsp
  · rw [if_neg hd1] at he1
    subst he1
    by_cases hd0 : c0 = '_'
    · rw [if_pos hd0] at he0
      exact absurd he0.symm hsp
    · rw [if_neg hd0] at he0
      subst he0
      exact hc0

theorem startsWithSeq_subset {p : List Char} :
    ∀ {s : List Char}, startsWithSeq p s = true → ∀ c ∈ p, c ∈ s := by
  induction p with
  | nil => intro s h c hc; simp at hc
  | cons p0 ps ih =>
      intro s h c hc
      cases s with
      | nil => simp [startsWithSeq] at h
      | cons c0 cs =>
          simp only [startsWithSeq, Bool.and_eq_true, beq_iff_eq] at h
          rcases List.mem_cons.mp hc with h1 | h1
          · subst h1
            rw [h.1]
            exact List.mem_cons_self _ _
          · exact List.mem_cons_of_mem _ (ih h.2 c h1)

theorem containsSeq_subset {p : List Char} :
    ∀ {s : List Char}, containsSeq p s = true → ∀ c ∈ p, c ∈ s := by
  intro s
  induction s with
  | nil =>
      intro h c hc
      exact startsWithSeq_subset h c hc
  | cons c0 cs ih =>
      intro h c hc
      simp only [containsSeq, Bool.or_eq_true] at h
      rcases h with h1 | h1
      · exact startsWithSeq_subset h1 c hc
      · exact List.mem_cons_of_mem _ (ih h1 c hc)

theorem most_common_ne_nil {c : KindCounter} (h : c ≠ []) :
    most_common c ≠ [] := by
  intro hc
  apply h
  have hperm := List.mergeSort_perm c (fun a b => decide (b.2 ≤ a.2))
  rw [show c.mergeSort (fun a b => decide (b.2 ≤ a.2)) = most_common c from
    rfl, hc] at hperm
  exact (List.nil_perm.mp hperm)

theorem cross_mem_summary {files : List PyFile}
    {diffOf : PyFile → List (List Char)}
    (h : summary_of files diffOf ≠ []) : '×' ∈ summary_of files diffOf := by
  unfold summary_of at h ⊢
  cases hmc : most_common (overall_kinds_of files diffOf) with
  | nil => rw [hmc] at h; simp [joinCommaSep] at h
  | cons p ps =>
      cases ps with
      | nil => simp [joinCommaSep]
      | cons q qs =>
          have hju : joinCommaSep (((p :: q :: qs).map
              (fun p => p.1.toList ++ ['×'] ++ (toString p.2).toList))) =
              (p.1.toList ++ ['×'] ++ (toString p.2).toList) ++
                (", ".toList ++ joinCommaSep ((q :: qs).map
                  (fun p => p.1.toList ++ ['×'] ++ (toString p.2).toList))) :=
            rfl
          rw [hju]
          simp

theorem summary_of_ne_nil {files : List PyFile}
    {diffOf : PyFile → List (List Char)}
    (h : overall_kinds_of files diffOf ≠ []) :
    summary_of files diffOf ≠ [] := by
  unfold summary_of
  cases hmc : most_common (overall_kinds_of files diffOf) with
  | nil => exact absurd hmc (most_common_ne_nil h)
  | cons p ps =>
      cases ps with
      | nil => simp [joinCommaSep]
      | cons q qs =>
          have hju : joinCommaSep (((p :: q :: qs).map
              (fun p => p.1.toList ++ ['×'] ++ (toString p.2).toList))) =
              (p.1.toList ++ ['×'] ++ (toString p.2).toList) ++
                (", ".toList ++ joinCommaSep ((q :: qs).map
                  (fun p => p.1.toList ++ ['×'] ++ (toString p.2).toList))) :=
            rfl
          rw [hju]
          simp

/-- No character outside the stem, the fixed label texts, space and the
ellipsis can reach the subject line. -/
theorem subject_avoids {files : List PyFile}
    {diffOf : PyFile → List (List Char)} {f0 : PyFile} {rest : List PyFile}
    (hf : files = f0 :: rest) {c : Char}
    (hstem : c ∉ f0.stem) (hsp : c ≠ ' ') (hdots : c ≠ '…')
    (hty : ∀ s ∈ (["fix", "feat", "refactor", "docs", "test", "style",
      "chore"] : List String), c ∉ s.toList)
    (hupd : c ∉ ": update ".toList) :
    c ∉ subject_of files diffOf := by
  intro hc
  subst hf
  simp only [subject_of] at hc
  rcases shorten_chars hc with h | h | h
  · rcases List.mem_append.mp h with h1 | h1
    · rcases List.mem_append.mp h1 with h2 | h2
      · exact hty _ (pick_type_mem _ _) h2
      · exact hupd h2
    · exact hstem (top_file_chars h1 hsp)
  · exact hsp h
  · simp only [String.toList] at h
    simp at h
    exact hdots h

/-! ### Claim C7 -/

/-- C7: for every non-empty batch, the returned message is exactly the
subject line (commit-type label, "update", first file stem with separators
spaced, shortened to at most 50 characters) followed by one newline; the
computed per-file bullet list and the category summary never occur in the
returned message (bullets always contain a slash and the summary always
contains the multiplication sign, and neither character can reach the
subject when no stem contains it). -/
theorem C7_message_is_subject_only (files : List PyFile)
    (diffOf : PyFile → List (List Char))
    (statsOf : PyFile → List Char × List Char)
    (f0 : PyFile) (rest : List PyFile) (b : List Char)
    (hf : files = f0 :: rest)
    (hstem : ∀ f ∈ files, '/' ∉ f.stem ∧ '×' ∉ f.stem)
    (hb : b ∈ bullets_of files statsOf)
    (hsum : summary_of files diffOf ≠ []) :
    generate_commit_message files diffOf statsOf =
        subject_of files diffOf ++ ['\n'] ∧
      (subject_of files diffOf).length ≤ 50 ∧
      containsSeq b (generate_commit_message files diffOf statsOf) = false ∧
      containsSeq (summary_of files diffOf)
        (generate_commit_message files diffOf statsOf) = false := by
  subst hf
  have hmsg : generate_commit_message (f0 :: rest) diffOf statsOf =
      subject_of (f0 :: rest) diffOf ++ ['\n'] := by
    simp [generate_commit_message]
  refine ⟨hmsg, ?_, ?_, ?_⟩
  · have hlen := shorten_length
      ((pick_type (overall_kinds_of (f0 :: rest) diffOf)
          (f0 :: rest)).toList ++ ": update ".toList ++ top_file_of f0)
      50 "…".toList
    have hs : subject_of (f0 :: rest) diffOf =
        shorten ((pick_type (overall_kinds_of (f0 :: rest) diffOf)
          (f0 :: rest)).toList ++ ": update ".toList ++ top_file_of f0)
          50 "…".toList := rfl
    have hmax : max 50 (("…".toList).dropWhile isSpaceChar).length = 50 := by
      decide
    rw [hs]
    rw [hmax] at hlen
    exact hlen
  · cases hcb : containsSeq b
        (generate_commit_message (f0 :: rest) diffOf statsOf) with
    | false => rfl
    | true =>
        exfalso
        have hslash : '/' ∈ b := by
          rcases List.mem_map.mp hb with ⟨f, hfmem, rfl⟩
          simp
        have hres := containsSeq_subset hcb '/' hslash
        rw [hmsg] at hres
        rcases List.mem_append.mp hres with h | h
        · exact subject_avoids rfl (hstem f0 (List.mem_cons_self _ _)).1
            (by decide) (by decide) (by decide) (by decide) h
        · simp at h
  · cases hcb : containsSeq (summary_of (f0 :: rest) diffOf)
        (generate_commit_message (f0 :: rest) diffOf statsOf) with
    | false => rfl
    | true =>
        exfalso
        have hcross : '×' ∈ summary_of (f0 :: rest) diffOf :=
          cross_mem_summary hsum
        have hres := containsSeq_subset hcb '×' hcross
        rw [hmsg] at hres
        rcases List.mem_append.mp hres with h | h
        · exact subject_avoids rfl (hstem f0 (List.mem_cons_self _ _)).2
            (by decide) (by decide) (by decide) (by decide) h
        · simp at h

/-- Witness for C7: one .py file whose staged diff adds a comment line
(docs tally 0.5, so the summary is non-empty), numstat fields 3 and 1. -/
theorem C7_message_is_subject_only_witness :
    generate_commit_message
        [⟨"app.py".toList, "app".toList, ".py", "app.py".toList⟩]
        (fun _ => ["+# note".toList]) (fun _ => ("3".toList, "1".toList)) =
      subject_of [⟨"app.py".toList, "app".toList, ".py", "app.py".toList⟩]
        (fun _ => ["+# note".toList]) ++ ['\n'] ∧
    (subject_of [⟨"app.py".toList, "app".toList, ".py", "app.py".toList⟩]
      (fun _ => ["+# note".toList])).length ≤ 50 ∧
    containsSeq "- app.py (+3 / -1)".toList
      (generate_commit_message
        [⟨"app.py".toList, "app".toList, ".py", "app.py".toList⟩]
        (fun _ => ["+# note".toList])
        (fun _ => ("3".toList, "1".toList))) = false ∧
    containsSeq
      (summary_of [⟨"app.py".toList, "app".toList, ".py", "app.py".toList⟩]
        (fun _ => ["+# note".toList]))
      (generate_commit_message
        [⟨"app.py".toList, "app".toList, ".py", "app.py".toList⟩]
        (fun _ => ["+# note".toList])
        (fun _ => ("3".toList, "1".toList))) = false :=
  C7_message_is_subject_only
    [⟨"app.py".toList, "app".toList, ".py", "app.py".toList⟩]
    (fun _ => ["+# note".toList]) (fun _ => ("3".toList, "1".toList))
    ⟨"app.py".toList, "app".toList, ".py", "app.py".toList⟩ []
    "- app.py (+3 / -1)".toList rfl (by decide) (by decide)
    (summary_of_ne_nil (by decide))

/-! ## File mutator (`touch_files`, git_script.py lines 31-108)

One file at a time: the per-file body of the `touch_files` loop.  The random
draws of one pass are collected in `MutDecisions` and quantified over. -/

/-- The random draws used while mutating one file. -/
structure MutDecisions where
  blankRoll : Bool
  blankIdx : Nat
  docRoll : Bool
  docText : List Char
  writeRoll : Bool
deriving DecidableEq, Repr

/-- A file as the mutator sees it: suffix, size in bytes, and the decoded
`readlines()` result (`none` when reading raises
UnicodeDecodeError / PermissionError / IOError, which the loop catches
and skips). -/
structure MutFile where
  suffix : String
  size : Nat
  text : Option (List (List Char))
deriving DecidableEq, Repr

/-- `line.endswith("\n")` — also used on whole file contents. -/
def endsNl (l : List Char) : Bool :=
  match l.getLast? with
  | some c => c == '\n'
  | none => false

/-- The trailing-whitespace pass applied to each line:
`line.rstrip() + "\n" if line.endswith("\n") else line.rstrip()` guarded by
`line.rstrip() != line and line.strip()`. -/
def trimLine (l : List Char) : List Char :=
  if rstrip l ≠ l ∧ pyStrip l ≠ [] then
    (if endsNl l then rstrip l ++ ['\n'] else rstrip l)
  else l

/-- Python `list.insert(i, x)` for `0 ≤ i ≤ len`. -/
def pyInsertAt (ls : List (List Char)) (i : Nat) (x : List Char) :
    List (List Char) :=
  ls.take i ++ x :: ls.drop i

/-- `re.match(r"^\s*def\s+\w+", line)`. -/
def defMatch (l : List Char) : Bool :=
  let r := l.dropWhile isSpaceChar
  if startsWithSeq "def".toList r then
    let r2 := r.drop 3
    let r3 := r2.dropWhile isSpaceChar
    decide (r3.length < r2.length) &&
      (match r3 with
       | c :: _ => isWordChar c
       | [] => false)
  else false

/-- An apostrophe character, for the triple-quote test. -/
def singleQuoteChar : Char := Char.ofNat 39

def tripleQuote : List Char := "\"\"\"".toList

def tripleSingle : List Char :=
  [singleQuoteChar, singleQuoteChar, singleQuoteChar]

/-- `' ' * (indent + 4) + three double quotes + choice + period + three
double quotes + newline`, with `indent = len(line) - len(line.lstrip())`. -/
def mkDocstring (line choice : List Char) : List Char :=
  List.replicate ((line.length - (lstrip line).length) + 4) ' ' ++
    tripleQuote ++ choice ++ ('.' :: tripleQuote) ++ ['\n']

/-- The docstring-insertion loop: find the first `def`-matching line whose
successor exists and does not already start (stripped) with a triple quote,
insert the docstring right after it and stop; lines where the successor is
already a docstring do not stop the scan.  Returns the new list and whether
an insertion happened (the changes flag). -/
def insertDocstring : List (List Char) → List Char → List (List Char) × Bool
  | [], _ => ([], false)
  | [l], _ => ([l], false)
  | l :: l2 :: rest, choice =>
      if defMatch l &&
          !(startsWithSeq tripleQuote (pyStrip l2) ||
            startsWithSeq tripleSingle (pyStrip l2)) then
        (l :: mkDocstring l choice :: l2 :: rest, true)
      else
        let r := insertDocstring (l2 :: rest) choice
        (l :: r.1, r.2)

/-- The guard of the blank-line insertion: the roll, the length threshold
(5 for Python files, 3 otherwise), and both neighbours of the insertion
point non-blank. -/
def blank_guard (lines : List (List Char)) (d : MutDecisions)
    (threshold : Nat) : Bool :=
  d.blankRoll && decide (threshold < lines.length) &&
    decide (pyStrip (lines.getD d.blankIdx []) ≠ []) &&
    decide (pyStrip (lines.getD (d.blankIdx - 1) []) ≠ [])

/-- The `.py` branch of `touch_files` (lines 50-78): blank-line insertion,
then trailing-whitespace removal, then docstring insertion.  Second
component: `changes_made`. -/
def mutatePy (lines : List (List Char)) (d : MutDecisions) :
    List (List Char) × Bool :=
  let n1 := if blank_guard lines d 5 then
    pyInsertAt lines d.blankIdx ['\n'] else lines
  let n2 := n1.map trimLine
  let trimmed := n1.any (fun l => decide (rstrip l ≠ l ∧ pyStrip l ≠ []))
  let dc := if d.docRoll then insertDocstring n2 d.docText else (n2, false)
  (dc.1, (blank_guard lines d 5 || trimmed) || dc.2)

/-- The non-`.py` branch (lines 81-93): trailing-whitespace removal, then
blank-line insertion with threshold 3. -/
def mutateOther (lines : List (List Char)) (d : MutDecisions) :
    List (List Char) × Bool :=
  let n1 := lines.map trimLine
  let trimmed := lines.any (fun l => decide (rstrip l ≠ l ∧ pyStrip l ≠ []))
  let n2 := if blank_guard n1 d 3 then
    pyInsertAt n1 d.blankIdx ['\n'] else n1
  (n2, trimmed || blank_guard n1 d 3)

/-- The trailing-newline fixups before writing (lines 96-101). -/
def fixTrailing (lines newLines : List (List Char)) : List (List Char) :=
  match lines.getLast?, newLines.getLast? with
  | some lo, some ln =>
      if endsNl lo && !endsNl ln then newLines.dropLast ++ [ln ++ ['\n']]
      else if !endsNl lo && endsNl ln then newLines.dropLast ++ [rstrip ln]
      else newLines
  | _, _ => newLines

/-- The per-file body of `touch_files`: skip files with no suffix or over
the size threshold, skip unreadable and empty files, mutate, and write back
(the returned lines) only when a change was made or the 0.4 roll fires. -/
def touch_file (f : MutFile) (d : MutDecisions) :
    Option (List (List Char)) :=
  if f.suffix = "" ∨ f.size > 100000 then none
  else
    match f.text with
    | none => none
    | some lines =>
        if lines = [] then none
        else if (if f.suffix = ".py" then mutatePy lines d
                 else mutateOther lines d).2 || d.writeRoll then
          some (fixTrailing lines
            (if f.suffix = ".py" then mutatePy lines d
             else mutateOther lines d).1)
        else none

/-- The range contract of `random.randint` at the two insertion sites:
`randint(2, len - 2)` for Python files, `randint(1, len - 1)` otherwise
(only relevant when the corresponding branch can run). -/
def validIdx (isPy : Bool) (len : Nat) (d : MutDecisions) : Prop :=
  if isPy then
    (d.blankRoll = true ∧ 5 < len → 2 ≤ d.blankIdx ∧ d.blankIdx ≤ len - 2)
  else
    (d.blankRoll = true ∧ 3 < len → 1 ≤ d.blankIdx ∧ d.blankIdx ≤ len - 1)

/-! ### Mutator lemmas -/

theorem getLast?_cons_of_getLast? {α : Type _} {l : List α} {a x : α}
    (h : l.getLast? = some x) : (a :: l).getLast? = some x := by
  rw [List.getLast?_cons, h]
  rfl

theorem getLast?_cons_ne {α : Type _} (a : α) {l : List α} (h : l ≠ []) :
    (a :: l).getLast? = l.getLast? := by
  cases hl : l.getLast? with
  | none => exact absurd (List.getLast?_eq_none_iff.mp hl) h
  | some y => exact getLast?_cons_of_getLast? hl

theorem head?_dropWhile_false {α : Type _} {p : α → Bool} :
    ∀ {l : List α} {c : α}, (l.dropWhile p).head? = some c → p c = false := by
  intro l
  induction l with
  | nil => intro c h; simp at h
  | cons a l ih =>
      intro c h
      by_cases hp : p a
      · rw [List.dropWhile_cons, if_pos hp] at h
        exact ih h
      · rw [List.dropWhile_cons, if_neg hp] at h
        have ha : a = c := by simpa using h
        rw [← ha]
        exact Bool.eq_false_iff.mpr hp

theorem rstrip_getLast {l : List Char} {c : Char}
    (h : (rstrip l).getLast? = some c) : isSpaceChar c = false := by
  unfold rstrip at h
  rw [List.getLast?_reverse] at h
  exact head?_dropWhile_false h

theorem rstrip_ne_nil {l : List Char} (h : pyStrip l ≠ []) :
    rstrip l ≠ [] := by
  intro hc
  apply h
  have h0 : l.reverse.dropWhile isSpaceChar = [] := by
    unfold rstrip at hc
    simpa using hc
  have h1 : ∀ c ∈ l.reverse, isSpaceChar c :=
    fun c hcm => List.dropWhile_eq_nil_iff.mp h0 c hcm
  have h2 : lstrip l = [] := by
    unfold lstrip
    exact List.dropWhile_eq_nil_iff.mpr
      (fun c hcl => h1 c (List.mem_reverse.mpr hcl))
  unfold pyStrip
  rw [h2]
  rfl

theorem endsNl_trimLine (l : List Char) : endsNl (trimLine l) = endsNl l := by
  unfold trimLine
  by_cases hcond : rstrip l ≠ l ∧ pyStrip l ≠ []
  · rw [if_pos hcond]
    by_cases hnl : endsNl l = true
    · rw [if_pos hnl, hnl]
      unfold endsNl
      rw [List.getLast?_concat]
      simp
    · rw [if_neg hnl]
      have hrne := rstrip_ne_nil hcond.2
      have hfalse : endsNl l = false := Bool.eq_false_iff.mpr hnl
      rw [hfalse]
      cases hlast : (rstrip l).getLast? with
      | none => exact absurd (List.getLast?_eq_none_iff.mp hlast) hrne
      | some c =>
          have hsp := rstrip_getLast hlast
          unfold endsNl
          rw [hlast]
          cases hcn : (c == '\n') with
          | false => exact hcn
          | true =>
              exfalso
              have hcc : c = '\n' := by simpa using hcn
              rw [hcc] at hsp
              simp [isSpaceChar] at hsp
  · rw [if_neg hcond]

theorem trimLine_ne_nil {l : List Char} (h : l ≠ []) : trimLine l ≠ [] := by
  unfold trimLine
  by_cases hcond : rstrip l ≠ l ∧ pyStrip l ≠ []
  · rw [if_pos hcond]
    by_cases hnl : endsNl l = true
    · rw [if_pos hnl]
      simp
    · rw [if_neg hnl]
      exact rstrip_ne_nil hcond.2
  · rw [if_neg hcond]
    exact h

theorem getLast?_drop_of_lt {α : Type _} :
    ∀ (l : List α) (i : Nat), i < l.length →
      (l.drop i).getLast? = l.getLast? := by
  intro l
  induction l with
  | nil => intro i h; simp at h
  | cons a l ih =>
      intro i h
      cases i with
      | zero => rfl
      | succ j =>
          have hj : j < l.length := by simpa using h
          rw [List.drop_succ_cons, ih j hj]
          have hlne : l ≠ [] := by
            intro hc
            rw [hc] at hj
            simp at hj
          exact (getLast?_cons_ne a hlne).symm

theorem getLast?_pyInsertAt (ls : List (List Char)) (i : Nat) (x : List Char)
    (h : i < ls.length) : (pyInsertAt ls i x).getLast? = ls.getLast? := by
  unfold pyInsertAt
  have hdrop : ls.drop i ≠ [] := by
    intro hc
    have := List.drop_eq_nil_iff.mp hc
    omega
  rw [List.getLast?_append, getLast?_cons_ne x hdrop,
    getLast?_drop_of_lt ls i h]
  cases hl : ls.getLast? with
  | none =>
      exfalso
      rw [List.getLast?_eq_none_iff.mp hl] at h
      simp at h
  | some y => rfl

theorem insertDocstring_ne_nil (ls : List (List Char)) (c : List Char)
    (h : ls ≠ []) : (insertDocstring ls c).1 ≠ [] := by
  cases ls with
  | nil => exact absurd rfl h
  | cons l tail =>
      cases tail with
      | nil => simp [insertDocstring]
      | cons l2 rest =>
          unfold insertDocstring
          split <;> simp

theorem getLast?_insertDocstring :
    ∀ (ls : List (List Char)) (c : List Char),
      ((insertDocstring ls c).1).getLast? = ls.getLast? := by
  intro ls c
  induction ls with
  | nil => rfl
  | cons l tail ih =>
      cases tail with
      | nil => rfl
      | cons l2 rest =>
          unfold insertDocstring
          split
          · dsimp only
            calc (l :: mkDocstring l c :: l2 :: rest).getLast?
                = (mkDocstring l c :: l2 :: rest).getLast? :=
                  getLast?_cons_ne _ (by simp)
              _ = (l2 :: rest).getLast? := getLast?_cons_ne _ (by simp)
              _ = (l :: l2 :: rest).getLast? :=
                  (getLast?_cons_ne _ (by simp)).symm
          · dsimp only
            have hne := insertDocstring_ne_nil (l2 :: rest) c (by simp)
            calc (l :: (insertDocstring (l2 :: rest) c).1).getLast?
                = ((insertDocstring (l2 :: rest) c).1).getLast? :=
                  getLast?_cons_ne _ hne
              _ = (l2 :: rest).getLast? := ih
              _ = (l :: l2 :: rest).getLast? :=
                  (getLast?_cons_ne _ (by simp)).symm

theorem flatten_getLast :
    ∀ (ls : List (List Char)) (m : List Char),
      ls.getLast? = some m → m ≠ [] →
      ls.flatten ≠ [] ∧ ls.flatten.getLast? = m.getLast? := by
  intro ls
  induction ls with
  | nil => intro m h hm; simp at h
  | cons a tail ih =>
      intro m h hm
      cases tail with
      | nil =>
          have ham : a = m := by simpa using h
          subst ham
          constructor
          · simpa using hm
          · simp
      | cons b rest =>
          have htail : (b :: rest).getLast? = some m := by
            rw [← getLast?_cons_ne a
              (show (b :: rest : List (List Char)) ≠ [] by simp)]
            exact h
          obtain ⟨hfne, hfl⟩ := ih m htail hm
          rw [List.flatten_cons]
          constructor
          · intro hc
            exact hfne (List.append_eq_nil.mp hc).2
          · rw [List.getLast?_append]
            cases hfl2 : (b :: rest).flatten.getLast? with
            | none => exact absurd (List.getLast?_eq_none_iff.mp hfl2) hfne
            | some y =>
                rw [hfl2] at hfl
                simpa [Option.or] using hfl

theorem endsNl_congr {a b : List Char} (h : a.getLast? = b.getLast?) :
    endsNl a = endsNl b := by
  unfold endsNl
  rw [h]

theorem blank_guard_length {lines : List (List Char)} {d : MutDecisions}
    {t : Nat} (h : blank_guard lines d t = true) :
    d.blankRoll = true ∧ t < lines.length := by
  unfold blank_guard at h
  simp only [Bool.and_eq_true, decide_eq_true_eq] at h
  exact ⟨h.1.1.1, h.1.1.2⟩

theorem mutatePy_getLast {lines : List (List Char)} (d : MutDecisions)
    {L : List Char} (hL : lines.getLast? = some L)
    (hlt : blank_guard lines d 5 = true → d.blankIdx < lines.length) :
    (mutatePy lines d).1.getLast? = some (trimLine L) := by
  simp only [mutatePy]
  by_cases hbg : blank_guard lines d 5 = true
  · rw [if_pos hbg]
    have h1 : (pyInsertAt lines d.blankIdx ['\n']).getLast? = some L := by
      rw [getLast?_pyInsertAt _ _ _ (hlt hbg)]
      exact hL
    have h2 : ((pyInsertAt lines d.blankIdx ['\n']).map trimLine).getLast? =
        some (trimLine L) := by
      rw [List.getLast?_map, h1]
      rfl
    by_cases hdr : d.docRoll = true
    · rw [if_pos hdr]
      rw [getLast?_insertDocstring, h2]
    · rw [if_neg hdr]
      exact h2
  · rw [if_neg hbg]
    have h2 : (lines.map trimLine).getLast? = some (trimLine L) := by
      rw [List.getLast?_map, hL]
      rfl
    by_cases hdr : d.docRoll = true
    · rw [if_pos hdr]
      rw [getLast?_insertDocstring, h2]
    · rw [if_neg hdr]
      exact h2

theorem mutateOther_getLast {lines : List (List Char)} (d : MutDecisions)
    {L : List Char} (hL : lines.getLast? = some L)
    (hlt : blank_guard (lines.map trimLine) d 3 = true →
      d.blankIdx < (lines.map trimLine).length) :
    (mutateOther lines d).1.getLast? = some (trimLine L) := by
  simp only [mutateOther]
  have h1 : (lines.map trimLine).getLast? = some (trimLine L) := by
    rw [List.getLast?_map, hL]
    rfl
  by_cases hbg : blank_guard (lines.map trimLine) d 3 = true
  · rw [if_pos hbg]
    rw [getLast?_pyInsertAt _ _ _ (hlt hbg)]
    exact h1
  · rw [if_neg hbg]
    exact h1

theorem fixTrailing_eq {lines nl : List (List Char)} {L M : List Char}
    (hlo : lines.getLast? = some L) (hln : nl.getLast? = some M)
    (heq : endsNl M = endsNl L) : fixTrailing lines nl = nl := by
  have h1 : (endsNl L && !endsNl M) = false := by
    rw [heq]
    cases endsNl L <;> rfl
  have h2 : (!endsNl L && endsNl M) = false := by
    rw [heq]
    cases endsNl L <;> rfl
  unfold fixTrailing
  rw [hlo, hln]
  simp [h1, h2]

/-! ### Claims C8 and C9 -/

/-- C8: a file with no extension (empty suffix) or larger than the
100000-byte threshold is skipped by the mutation pass and its contents are
never rewritten. -/
theorem C8_mutator_skips (f : MutFile) (d : MutDecisions)
    (h : f.suffix = "" ∨ f.size > 100000) : touch_file f d = none := by
  unfold touch_file
  rw [if_pos h]

/-- Witness for C8: a suffix-less file and an oversized .py file, under
decisions that would otherwise force a write. -/
theorem C8_mutator_skips_witness :
    touch_file ⟨"", 5, some ["x\n".toList]⟩
        ⟨true, 2, true, "Helper function".toList, true⟩ = none ∧
      touch_file ⟨".py", 100001, some ["x\n".toList]⟩
        ⟨true, 2, true, "Helper function".toList, true⟩ = none :=
  ⟨C8_mutator_skips _ _ (Or.inl rfl),
   C8_mutator_skips _ _ (Or.inr (by decide))⟩

/-- C9: whenever the mutator rewrites a text file, the new content ends with
a newline iff the original content did.  `lines` is the `readlines()` split
(each element non-empty, as `readlines` guarantees), `validIdx` is the range
contract of the `randint` draws, and the content is the concatenation of the
lines.  No pass ever changes whether the final line ends in a newline, so
the two trailing-newline fixups before the write never fire. -/
theorem C9_trailing_newline_preserved (f : MutFile) (d : MutDecisions)
    (lines out : List (List Char))
    (htext : f.text = some lines)
    (hne : ∀ l ∈ lines, l ≠ [])
    (hidx : validIdx (f.suffix == ".py") lines.length d)
    (hout : touch_file f d = some out) :
    endsNl out.flatten = endsNl lines.flatten := by
  obtain ⟨fsuffix, fsize, ftext⟩ := f
  simp only at htext hidx
  subst htext
  unfold touch_file at hout
  by_cases hskip : fsuffix = "" ∨ fsize > 100000
  · rw [if_pos hskip] at hout
    simp at hout
  · rw [if_neg hskip] at hout
    dsimp only at hout
    by_cases hemp : lines = []
    · simp [hemp] at hout
    · rw [if_neg hemp] at hout
      obtain ⟨L, hL⟩ : ∃ L, lines.getLast? = some L := by
        cases hl : lines.getLast? with
        | none => exact absurd (List.getLast?_eq_none_iff.mp hl) hemp
        | some y => exact ⟨y, rfl⟩
      have hLmem : L ∈ lines := by
        obtain ⟨ys, hys⟩ := List.getLast?_eq_some_iff.mp hL
        rw [hys]
        simp
      have hLne : L ≠ [] := hne L hLmem
      have hrlast : (if fsuffix = ".py" then mutatePy lines d
          else mutateOther lines d).1.getLast? = some (trimLine L) := by
        by_cases hpy : fsuffix = ".py"
        · rw [if_pos hpy]
          refine mutatePy_getLast d hL ?_
          intro hbg
          obtain ⟨hroll, hlen⟩ := blank_guard_length hbg
          unfold validIdx at hidx
          rw [hpy] at hidx
          simp only [beq_self_eq_true, if_true] at hidx
          have hb := hidx ⟨hroll, hlen⟩
          omega
        · rw [if_neg hpy]
          refine mutateOther_getLast d hL ?_
          intro hbg
          obtain ⟨hroll, hlen⟩ := blank_guard_length hbg
          rw [List.length_map] at hlen ⊢
          unfold validIdx at hidx
          have hbeq : (fsuffix == ".py") = false := by
            simpa using hpy
          rw [hbeq] at hidx
          simp only [Bool.false_eq_true, if_false] at hidx
          have hb := hidx ⟨hroll, hlen⟩
          omega
      by_cases hw : ((if fsuffix = ".py" then mutatePy lines d
          else mutateOther lines d).2 || d.writeRoll) = true
      · rw [if_pos hw] at hout
        have hout' : fixTrailing lines (if fsuffix = ".py" then
            mutatePy lines d else mutateOther lines d).1 = out :=
          Option.some.inj hout
        rw [← hout', fixTrailing_eq hL hrlast (endsNl_trimLine L)]
        have h1 := flatten_getLast _ _ hrlast (trimLine_ne_nil hLne)
        have h2 := flatten_getLast _ _ hL hLne
        rw [endsNl_congr h1.2, endsNl_congr h2.2, endsNl_trimLine]
      · rw [if_neg hw] at hout
        simp at hout

/-- Witness for C9: a two-line .py file whose last line has no trailing
newline; the docstring pass fires and the rewritten content still has no
trailing newline. -/
theorem C9_trailing_newline_preserved_witness :
    endsNl (touch_file
        ⟨".py", 50, some ["def foo():\n".toList, "    return 1".toList]⟩
        ⟨false, 2, true, "Process data".toList, false⟩).toList.flatten.flatten =
      endsNl (["def foo():\n".toList, "    return 1".toList] :
        List (List Char)).flatten := by
  have h := C9_trailing_newline_preserved
    ⟨".py", 50, some ["def foo():\n".toList, "    return 1".toList]⟩
    ⟨false, 2, true, "Process data".toList, false⟩
    ["def foo():\n".toList, "    return 1".toList]
    (["def foo():\n".toList,
      "    \"\"\"Process data.\"\"\"\n".toList, "    return 1".toList])
    rfl (by decide) (by simp [validIdx]) (by decide)
  simpa using h
